import Mathlib

/-!
A shallow embedding of the persistence layer of the `analyst-agent` repository:
the SQLite-backed metadata store (`src/datastore/sqlite_store.py`) and the
filesystem attachment store / lifecycle coordinator
(`src/datastore/attachment_store.py`).

Modelling conventions:
* A SQLite table is a `List` of row structures; `TEXT` columns are `String`
  (SQLite BINARY collation on UTF-8 text agrees with the codepoint
  lexicographic order of `String`), `INTEGER` columns are `Int`.
* `datetime.now(...).isoformat()` is nondeterministic, so every operation that
  calls `_utc_now_iso` takes the produced timestamp as an explicit `now`
  argument.
* Fallible operations return `Except StoreErr`; Python `KeyError` is
  `StoreErr.notFound`, `ValueError` is `StoreErr.invalidArg`, an sqlite
  integrity error is `StoreErr.constraint`, an uncaught `IndexError`
  (`data_rows[-1]` on an empty list) is `StoreErr.indexError`, and an opaque
  infrastructure failure of a mirrored store is `StoreErr.ioFailure`.
* Pydantic serialization is treated as faithful: the serialized document of a
  record is carried as an opaque `String` (`doc`), `model_dump_json` stores it
  and `validate_json` returns it unchanged.
* Python truthiness is translated literally: `if after:` is
  `after = some a` with `a ≠ ""`, and `if not item_id:` is `item.id = ""`.
-/

inductive StoreErr where
  | notFound
  | invalidArg
  | constraint
  | indexError
  | ioFailure
deriving DecidableEq, Repr

/-- A row of the `threads` table: `threads(id PK, data, created_at, updated_at)`. -/
structure ThreadRow where
  id : String
  data : String
  created_at : String
  updated_at : String
deriving DecidableEq, Repr

/-- A row of the `thread_items` table:
`thread_items(id PK, thread_id FK, data, created_at, position)`. -/
structure ItemRow where
  id : String
  thread_id : String
  data : String
  created_at : String
  position : Int
deriving DecidableEq, Repr

/-- The SQLite database state: the `threads` and `thread_items` tables.
(The `attachments` table only appears through the abstract mirror of the
attachment coordinator and is not needed by any claim about `SqliteStore`.) -/
structure DB where
  threads : List ThreadRow
  items : List ItemRow
deriving DecidableEq, Repr

/-- The value side of a `ThreadMetadata`: its id, its serialized document
(`model_dump_json`), and the `created_at` it carries (if any). -/
structure ThreadVal where
  id : String
  doc : String
  created_at : Option String
deriving DecidableEq, Repr

/-- The value side of a `ThreadItem`: its id, its serialized document, and the
`created_at` it carries (if any). -/
structure ItemVal where
  id : String
  doc : String
  created_at : Option String
deriving DecidableEq, Repr

/-- `chatkit.store.Page`. -/
structure Page (ρ : Type) where
  data : List ρ
  has_more : Bool
  after : Option String
deriving DecidableEq, Repr

instance {ε α : Type} [DecidableEq ε] [DecidableEq α] : DecidableEq (Except ε α)
  | .error x, .error y =>
    if h : x = y then .isTrue (by rw [h])
    else .isFalse (by intro hc; injection hc with h2; exact h h2)
  | .error _, .ok _ => .isFalse (by intro hc; injection hc)
  | .ok _, .error _ => .isFalse (by intro hc; injection hc)
  | .ok x, .ok y =>
    if h : x = y then .isTrue (by rw [h])
    else .isFalse (by intro hc; injection hc with h2; exact h h2)

/-- The `ORDER BY updated_at` key of a thread row: SQLite's BINARY collation
compares the UTF-8 bytes, which agrees with the codepoint-lexicographic order
of the character list. -/
def ThreadRow.updKey (r : ThreadRow) : List Char :=
  r.updated_at.data

/-- `str.lower()` (ASCII case folding, per-character), written over the
character list so that it evaluates by kernel reduction. -/
def pyLower (s : String) : String :=
  ⟨s.data.map Char.toLower⟩

/-- `_safe_order`: lower-case the order and default anything that is not
`asc`/`desc` to `desc`. -/
def safe_order (order : String) : String :=
  let o := pyLower order
  if o = "asc" ∨ o = "desc" then o else "desc"

/-- Whether the (normalized) order is descending; both SQL comparators and the
`ORDER BY` direction are derived from this. -/
def isDesc (order : String) : Bool :=
  safe_order order = "desc"

/-- The SQL comparator `<cmp>` of the pagination engine, as a relation:
`a <cmp> b` is `b < a` when descending (`<cmp>` is `<` reversed onto the
cursor value) — concretely `dLT desc v k` says "k `<cmp>` v" fails/holds the
way the SQL text `col <cmp> ?` does with `col = k` and parameter `v`:
descending compares `k < v`, ascending compares `v < k`. -/
def dLT {κ : Type} [LinearOrder κ] (desc : Bool) (v k : κ) : Prop :=
  if desc then k < v else v < k

instance {κ : Type} [LinearOrder κ] (desc : Bool) (v k : κ) :
    Decidable (dLT desc v k) := by
  unfold dLT
  infer_instance

/-- The non-strict direction-sensitive order used to state sortedness of an
`ORDER BY col dir` result. -/
def dLE {κ : Type} [LinearOrder κ] (desc : Bool) (v k : κ) : Prop :=
  if desc then k ≤ v else v ≤ k

instance {κ : Type} [LinearOrder κ] (desc : Bool) (v k : κ) :
    Decidable (dLE desc v k) := by
  unfold dLE
  infer_instance

/-- `a` comes strictly before `b` in the output of
`ORDER BY key dir, id dir`. -/
def rowLT {ρ κ : Type} [LinearOrder κ] (key : ρ → κ) (rid : ρ → String)
    (desc : Bool) (a b : ρ) : Prop :=
  dLT desc (key a) (key b) ∨
    (key a = key b ∧ dLT desc (rid a).data (rid b).data)

/-- `a` comes (weakly) before `b` in the output of `ORDER BY key dir, id dir`. -/
def rowLE {ρ κ : Type} [LinearOrder κ] (key : ρ → κ) (rid : ρ → String)
    (desc : Bool) (a b : ρ) : Prop :=
  dLT desc (key a) (key b) ∨
    (key a = key b ∧ dLE desc (rid a).data (rid b).data)

instance {ρ κ : Type} [LinearOrder κ] (key : ρ → κ) (rid : ρ → String)
    (desc : Bool) : DecidableRel (rowLT key rid desc) := by
  intro a b
  unfold rowLT
  infer_instance

instance {ρ κ : Type} [LinearOrder κ] (key : ρ → κ) (rid : ρ → String)
    (desc : Bool) : DecidableRel (rowLE key rid desc) := by
  intro a b
  unfold rowLE
  infer_instance

/-- The tail shared by both listing workers: fetch `LIMIT limit + 1` rows from
the sorted, filtered result `T`, compute `has_more = len(rows) > limit`, keep
`data_rows = rows[:limit]`, and compute
`next_after = data_rows[-1]["id"] if has_more or data_rows else None`.
`data_rows[-1]` on an empty list raises `IndexError`. -/
def finishPage {ρ : Type} (T : List ρ) (rid : ρ → String) (limit : Nat) :
    Except StoreErr (Page ρ) :=
  let rows := T.take (limit + 1)
  let has_more : Bool := decide (limit < rows.length)
  let data_rows := rows.take limit
  if has_more || !data_rows.isEmpty then
    match data_rows.getLast? with
    | some r => .ok ⟨data_rows, has_more, some (rid r)⟩
    | none => .error .indexError
  else
    .ok ⟨data_rows, has_more, none⟩

/-- The sorted, filtered row set the `load_threads` worker queries: resolve a
truthy `after` cursor by point lookup on `threads.id`; if it resolves, keep the
rows satisfying `(updated_at <cmp> v) OR (updated_at = v AND id <cmp> after)`;
order by `updated_at dir, id dir`. -/
def threadsMatching (db : DB) (after : Option String) (order : String) :
    List ThreadRow :=
  let desc := isDesc order
  let filtered :=
    match after with
    | none => db.threads
    | some a =>
      if a = "" then db.threads
      else
        match db.threads.find? (fun r => decide (r.id = a)) with
        | none => db.threads
        | some arow =>
          db.threads.filter (fun r =>
            decide (dLT desc arow.updKey r.updKey) ||
              (decide (r.updated_at = arow.updated_at) &&
                decide (dLT desc a.data r.id.data)))
  List.insertionSort (rowLE ThreadRow.updKey ThreadRow.id desc) filtered

/-- `SqliteStore.load_threads`: the full sorted result set of `threadsMatching`
paged by `finishPage`.  The page carries the selected rows; validating the
`data` column back into `ThreadMetadata` is modelled as the identity. -/
def load_threads (db : DB) (limit : Nat) (after : Option String)
    (order : String) : Except StoreErr (Page ThreadRow) :=
  finishPage (threadsMatching db after order) ThreadRow.id limit

/-- The rows of `thread_items` scoped to one thread
(`WHERE thread_id = ?`). -/
def scopedItems (db : DB) (tid : String) : List ItemRow :=
  db.items.filter (fun r => decide (r.thread_id = tid))

/-- The sorted, filtered row set the `load_thread_items` worker queries:
resolve a truthy `after` cursor by point lookup on `(thread_id, id)`; if it
resolves, keep the scoped rows satisfying `position <cmp> v` (note: no id
tie-break disjunct, unlike the threads query); order by `position dir, id dir`. -/
def itemsMatching (db : DB) (tid : String) (after : Option String)
    (order : String) : List ItemRow :=
  let desc := isDesc order
  let filtered :=
    match after with
    | none => scopedItems db tid
    | some a =>
      if a = "" then scopedItems db tid
      else
        match db.items.find? (fun r =>
            decide (r.thread_id = tid) && decide (r.id = a)) with
        | none => scopedItems db tid
        | some arow =>
          (scopedItems db tid).filter (fun r =>
            decide (dLT desc arow.position r.position))
  List.insertionSort (rowLE ItemRow.position ItemRow.id desc) filtered

/-- `SqliteStore.load_thread_items`. -/
def load_thread_items (db : DB) (tid : String) (after : Option String)
    (limit : Nat) (order : String) : Except StoreErr (Page ItemRow) :=
  finishPage (itemsMatching db tid after order) ItemRow.id limit

/-- The item listing as the specification describes it (spec §4.2 step 2 /
§4.2 closing sentence): the `after` filter uses the composite predicate
`position <cmp> v OR (position = v AND id <cmp> after)`, identical to the
threads query up to order key and scoping.  This definition exists only to be
compared with `load_thread_items`, which is translated from the source. -/
def itemsMatchingSpec (db : DB) (tid : String) (after : Option String)
    (order : String) : List ItemRow :=
  let desc := isDesc order
  let filtered :=
    match after with
    | none => scopedItems db tid
    | some a =>
      if a = "" then scopedItems db tid
      else
        match db.items.find? (fun r =>
            decide (r.thread_id = tid) && decide (r.id = a)) with
        | none => scopedItems db tid
        | some arow =>
          (scopedItems db tid).filter (fun r =>
            decide (dLT desc arow.position r.position) ||
              (decide (r.position = arow.position) &&
                decide (dLT desc a.data r.id.data)))
  List.insertionSort (rowLE ItemRow.position ItemRow.id desc) filtered

/-- Spec-described counterpart of `load_thread_items` (see
`itemsMatchingSpec`). -/
def load_thread_items_spec (db : DB) (tid : String) (after : Option String)
    (limit : Nat) (order : String) : Except StoreErr (Page ItemRow) :=
  finishPage (itemsMatchingSpec db tid after order) ItemRow.id limit

/-- `SqliteStore.load_thread`: point lookup of the `data` column by id;
`KeyError` when absent. -/
def load_thread (db : DB) (thread_id : String) : Except StoreErr String :=
  match db.threads.find? (fun r => decide (r.id = thread_id)) with
  | some row => .ok row.data
  | none => .error .notFound

/-- `SqliteStore.save_thread`: upsert by id.  `created_at` is the thread's own
creation time when it carries one, else `now`; on conflict only `data` and
`updated_at` are replaced (`ON CONFLICT(id) DO UPDATE SET data, updated_at`). -/
def save_thread (db : DB) (t : ThreadVal) (now : String) : DB :=
  let created_at := t.created_at.getD now
  if db.threads.any (fun r => decide (r.id = t.id)) then
    { db with
      threads := db.threads.map (fun r =>
        if r.id = t.id then { r with data := t.doc, updated_at := now } else r) }
  else
    { db with threads := db.threads ++ [⟨t.id, t.doc, created_at, now⟩] }

/-- `SqliteStore.delete_thread`: `DELETE FROM threads WHERE id = ?`, with
`ON DELETE CASCADE` removing the thread's items (`PRAGMA foreign_keys = ON` is
set on every connection); `KeyError` when no thread row was removed (in which
case the cascade removed nothing either, so the error leaves the state
unchanged). -/
def delete_thread (db : DB) (thread_id : String) : Except StoreErr DB :=
  if db.threads.any (fun r => decide (r.id = thread_id)) then
    .ok ⟨db.threads.filter (fun r => !decide (r.id = thread_id)),
         db.items.filter (fun r => !decide (r.thread_id = thread_id))⟩
  else
    .error .notFound

/-- `MAX(position)` over a list of rows (`none` on an empty set, as SQL `MAX`
returns NULL). -/
def maxPos? (l : List ItemRow) : Option Int :=
  l.foldl (fun acc r =>
    match acc with
    | none => some r.position
    | some m => some (max m r.position)) none

/-- `SELECT COALESCE(MAX(position) + 1, 0) FROM thread_items WHERE thread_id = ?`. -/
def nextPosition (db : DB) (tid : String) : Int :=
  match maxPos? (scopedItems db tid) with
  | none => 0
  | some m => m + 1

/-- `SqliteStore.add_thread_item`: `ValueError` on a falsy id; the insert
enforces the `id` PRIMARY KEY and the `thread_id` FOREIGN KEY (both surfacing
as an integrity error); the assigned position is `nextPosition`; the parent
thread's `updated_at` is refreshed to `now` in the same transaction. -/
def add_thread_item (db : DB) (tid : String) (item : ItemVal) (now : String) :
    Except StoreErr DB :=
  if item.id = "" then .error .invalidArg
  else if db.items.any (fun r => decide (r.id = item.id)) then .error .constraint
  else if !db.threads.any (fun r => decide (r.id = tid)) then .error .constraint
  else
    let created_at := item.created_at.getD now
    .ok ⟨db.threads.map (fun r =>
           if r.id = tid then { r with updated_at := now } else r),
         db.items ++ [⟨item.id, tid, item.doc, created_at, nextPosition db tid⟩]⟩

/-- `SqliteStore.save_item`: `ValueError` on a falsy id, else
`UPDATE thread_items SET data = ? WHERE thread_id = ? AND id = ?`;
`KeyError` when no row matched. -/
def save_item (db : DB) (tid : String) (item : ItemVal) :
    Except StoreErr DB :=
  if item.id = "" then .error .invalidArg
  else if db.items.any (fun r =>
      decide (r.thread_id = tid) && decide (r.id = item.id)) then
    .ok { db with
          items := db.items.map (fun r =>
            if r.thread_id = tid ∧ r.id = item.id then
              { r with data := item.doc }
            else r) }
  else
    .error .notFound

/-- `SqliteStore.load_item`: point lookup by `(thread_id, id)`; `KeyError`
when absent. -/
def load_item (db : DB) (tid item_id : String) : Except StoreErr String :=
  match db.items.find? (fun r =>
      decide (r.thread_id = tid) && decide (r.id = item_id)) with
  | some row => .ok row.data
  | none => .error .notFound

/-- `SqliteStore.delete_thread_item`: `DELETE ... WHERE thread_id = ? AND id = ?`;
`KeyError` when no row was removed. -/
def delete_thread_item (db : DB) (tid item_id : String) :
    Except StoreErr DB :=
  if db.items.any (fun r =>
      decide (r.thread_id = tid) && decide (r.id = item_id)) then
    .ok { db with
          items := db.items.filter (fun r =>
            !(decide (r.thread_id = tid) && decide (r.id = item_id))) }
  else
    .error .notFound

/-- One fueled step-and-follow walk of a paginated listing: call `step` with
the current cursor; stop with the page's rows when `has_more` is false,
otherwise continue from the returned `after` cursor.  `none` means the walk
failed or did not reach a `has_more = false` page within `fuel` calls. -/
def genWalk {ρ : Type} (step : Option String → Except StoreErr (Page ρ)) :
    Nat → Option String → Option (List ρ)
  | 0, _ => none
  | fuel + 1, after =>
    match step after with
    | .error _ => none
    | .ok page =>
      if page.has_more then
        (genWalk step fuel page.after).map (fun rest => page.data ++ rest)
      else
        some page.data

/-- The cursor walk over `load_threads`, starting from `after = None`. -/
def walkThreads (db : DB) (limit : Nat) (order : String) (fuel : Nat) :
    Option (List ThreadRow) :=
  genWalk (fun a => load_threads db limit a order) fuel none

/-- The cursor walk over `load_thread_items`, starting from `after = None`. -/
def walkItems (db : DB) (tid : String) (limit : Nat) (order : String)
    (fuel : Nat) : Option (List ItemRow) :=
  genWalk (fun a => load_thread_items db tid a limit order) fuel none

/-- A sequential item-level operation against one thread (claim C3): an
append (`add_thread_item`) or a single-item delete (`delete_thread_item`). -/
inductive ItemOp where
  | add (item : ItemVal) (now : String)
  | del (item_id : String)
deriving DecidableEq, Repr

/-- Whether an `ItemOp` is an append. -/
def ItemOp.isAddOp : ItemOp → Bool
  | .add _ _ => true
  | .del _ => false

/-- Apply one `ItemOp`; a failing operation leaves the database unchanged. -/
def applyItemOp (tid : String) (db : DB) : ItemOp → DB
  | .add item now =>
    match add_thread_item db tid item now with
    | .ok db' => db'
    | .error _ => db
  | .del item_id =>
    match delete_thread_item db tid item_id with
    | .ok db' => db'
    | .error _ => db

/-- Run a sequence of `ItemOp`s. -/
def runItemOps (tid : String) (db : DB) : List ItemOp → DB
  | [] => db
  | op :: ops => runItemOps tid (applyItemOp tid db op) ops

/-- The positions assigned by the successful `add_thread_item` calls of a
sequential operation sequence, in execution order. -/
def assignedPositions (tid : String) (db : DB) : List ItemOp → List Int
  | [] => []
  | .add item now :: ops =>
    match add_thread_item db tid item now with
    | .ok db' => nextPosition db tid :: assignedPositions tid db' ops
    | .error _ => assignedPositions tid db ops
  | .del item_id :: ops =>
    assignedPositions tid (applyItemOp tid db (.del item_id)) ops

/-- One attachment directory of the blob store root: `mkdir` + the stored
payload file + the `metadata.json` side-file written by `create_attachment`. -/
structure AttachmentDir where
  attachment_id : String
  stored_name : String
  payload : String
  metadata_written : Bool
deriving DecidableEq, Repr

/-- The filesystem state under the blob store root directory. -/
structure BlobFS where
  dirs : List AttachmentDir
deriving DecidableEq, Repr

/-- `RawAttachmentStore.create_attachment`, storage effects only.  The
externally produced inputs — the generated attachment id
(`generate_attachment_id`), the payload bytes extracted from the request
context (`_extract_file_bytes`) and the sanitized stored name
(`_derive_stored_name`) — are taken as arguments; the claim quantifies over
them.  `mirror` is the outcome of the configured metadata store's
`save_attachment` on this call (`none`: no metadata store configured).
`_maybe_save_metadata` awaits the mirror without any exception handling, so a
mirror failure propagates out of `create_attachment` after the directory,
payload and side-file have already been written — they are not rolled back. -/
def create_attachment (fs : BlobFS) (attachment_id stored_name payload : String)
    (mirror : Option (Except StoreErr Unit)) :
    BlobFS × Except StoreErr Unit :=
  let fs' : BlobFS :=
    ⟨⟨attachment_id, stored_name, payload, true⟩ ::
      fs.dirs.filter (fun d => !decide (d.attachment_id = attachment_id))⟩
  match mirror with
  | none => (fs', .ok ())
  | some (.ok _) => (fs', .ok ())
  | some (.error e) => (fs', .error e)

/-- `RawAttachmentStore.delete_attachment`: `KeyError` when the directory does
not exist, else `shutil.rmtree` removes it and then `_maybe_delete_metadata`
awaits the mirrored `delete_attachment` without exception handling, so a
mirror failure propagates after the directory is already gone. -/
def delete_attachment (fs : BlobFS) (attachment_id : String)
    (mirror : Option (Except StoreErr Unit)) :
    BlobFS × Except StoreErr Unit :=
  if fs.dirs.any (fun d => decide (d.attachment_id = attachment_id)) then
    let fs' : BlobFS :=
      ⟨fs.dirs.filter (fun d => !decide (d.attachment_id = attachment_id))⟩
    match mirror with
    | none => (fs', .ok ())
    | some (.ok _) => (fs', .ok ())
    | some (.error e) => (fs', .error e)
  else
    (fs, .error .notFound)

theorem string_eq_of_data_eq {a b : String} (h : a.data = b.data) : a = b := by
  cases a
  cases b
  exact congrArg String.mk h

section OrderLemmas

variable {κ : Type} [LinearOrder κ]

theorem dLT_irrefl (desc : Bool) (a : κ) : ¬ dLT desc a a := by
  cases desc <;> simp [dLT]

theorem dLT_asymm {desc : Bool} {a b : κ} (h1 : dLT desc a b)
    (h2 : dLT desc b a) : False := by
  cases desc <;> simp only [dLT, Bool.false_eq_true, if_false, if_true] at h1 h2 <;>
    exact lt_asymm h1 h2

theorem dLT_trans {desc : Bool} {a b c : κ} (h1 : dLT desc a b)
    (h2 : dLT desc b c) : dLT desc a c := by
  cases desc <;> simp only [dLT, Bool.false_eq_true, if_false, if_true] at *
  · exact lt_trans h1 h2
  · exact lt_trans h2 h1

theorem dLE_refl (desc : Bool) (a : κ) : dLE desc a a := by
  cases desc <;> simp [dLE]

theorem dLE_total (desc : Bool) (a b : κ) : dLE desc a b ∨ dLE desc b a := by
  cases desc <;> simp only [dLE, Bool.false_eq_true, if_false, if_true] <;>
    exact le_total _ _

theorem dLE_trans {desc : Bool} {a b c : κ} (h1 : dLE desc a b)
    (h2 : dLE desc b c) : dLE desc a c := by
  cases desc <;> simp only [dLE, Bool.false_eq_true, if_false, if_true] at *
  · exact le_trans h1 h2
  · exact le_trans h2 h1

theorem dLT_of_dLE_of_ne {desc : Bool} {a b : κ} (h : dLE desc a b)
    (hne : a ≠ b) : dLT desc a b := by
  cases desc <;>
    simp only [dLT, dLE, Bool.false_eq_true, if_false, if_true] at *
  · exact lt_of_le_of_ne h hne
  · exact lt_of_le_of_ne h (Ne.symm hne)

theorem dLE_of_dLT {desc : Bool} {a b : κ} (h : dLT desc a b) :
    dLE desc a b := by
  cases desc <;>
    simp only [dLT, dLE, Bool.false_eq_true, if_false, if_true] at * <;>
    exact le_of_lt h

theorem eq_of_not_dLT {desc : Bool} {a b : κ} (h1 : ¬ dLT desc a b)
    (h2 : ¬ dLT desc b a) : a = b := by
  cases desc <;>
    simp only [dLT, Bool.false_eq_true, if_false, if_true, not_lt] at h1 h2
  · exact le_antisymm h2 h1
  · exact le_antisymm h1 h2

end OrderLemmas

section RowOrderLemmas

variable {ρ κ : Type} [LinearOrder κ] (key : ρ → κ) (rid : ρ → String)
variable (desc : Bool)

theorem rowLE_total (a b : ρ) :
    rowLE key rid desc a b ∨ rowLE key rid desc b a := by
  by_cases h1 : dLT desc (key a) (key b)
  · exact Or.inl (Or.inl h1)
  · by_cases h2 : dLT desc (key b) (key a)
    · exact Or.inr (Or.inl h2)
    · have hk : key a = key b := eq_of_not_dLT h1 h2
      rcases dLE_total desc (rid a).data (rid b).data with h | h
      · exact Or.inl (Or.inr ⟨hk, h⟩)
      · exact Or.inr (Or.inr ⟨hk.symm, h⟩)

theorem rowLE_trans {a b c : ρ} (h1 : rowLE key rid desc a b)
    (h2 : rowLE key rid desc b c) : rowLE key rid desc a c := by
  rcases h1 with h1 | ⟨hk1, hi1⟩
  · rcases h2 with h2 | ⟨hk2, _⟩
    · exact Or.inl (dLT_trans h1 h2)
    · exact Or.inl (hk2 ▸ h1)
  · rcases h2 with h2 | ⟨hk2, hi2⟩
    · exact Or.inl (hk1 ▸ h2)
    · exact Or.inr ⟨hk1.trans hk2, dLE_trans hi1 hi2⟩

theorem rowLT_asymm {a b : ρ} (h1 : rowLT key rid desc a b)
    (h2 : rowLT key rid desc b a) : False := by
  rcases h1 with h1 | ⟨hk1, hi1⟩
  · rcases h2 with h2 | ⟨hk2, _⟩
    · exact dLT_asymm h1 h2
    · exact absurd (hk2 ▸ h1) (dLT_irrefl desc _)
  · rcases h2 with h2 | ⟨_, hi2⟩
    · exact absurd (hk1 ▸ h2) (dLT_irrefl desc _)
    · exact dLT_asymm hi1 hi2

theorem rowLT_irrefl (a : ρ) : ¬ rowLT key rid desc a a := by
  intro h
  exact rowLT_asymm key rid desc h h

theorem rowLT_of_rowLE_of_ne_rid {a b : ρ} (h : rowLE key rid desc a b)
    (hne : rid a ≠ rid b) : rowLT key rid desc a b := by
  rcases h with h | ⟨hk, hi⟩
  · exact Or.inl h
  · exact Or.inr
      ⟨hk, dLT_of_dLE_of_ne hi (fun hd => hne (string_eq_of_data_eq hd))⟩

theorem rowLT_of_rowLE_of_ne_key {a b : ρ} (h : rowLE key rid desc a b)
    (hne : key a ≠ key b) : rowLT key rid desc a b := by
  rcases h with h | ⟨hk, _⟩
  · exact Or.inl h
  · exact absurd hk hne

instance : IsTotal ρ (rowLE key rid desc) :=
  ⟨rowLE_total key rid desc⟩

instance : IsTrans ρ (rowLE key rid desc) :=
  ⟨fun _ _ _ => rowLE_trans key rid desc⟩

end RowOrderLemmas

section ListHelpers

variable {α β : Type}

/-- Two permutation-equal lists that are both strictly sorted by an
asymmetric relation are equal. -/
theorem eq_of_perm_of_pairwise_asymm {R : α → α → Prop}
    (hR : ∀ a b, R a b → R b a → False) {l₁ : List α} :
    ∀ {l₂ : List α}, l₁.Perm l₂ → l₁.Pairwise R → l₂.Pairwise R → l₁ = l₂ := by
  induction l₁ with
  | nil =>
    intro l₂ hp _ _
    exact (List.Perm.eq_nil hp.symm).symm
  | cons a t ih =>
    intro l₂ hp h1 h2
    have ha : a ∈ l₂ := hp.subset (List.mem_cons_self a t)
    cases l₂ with
    | nil => exact absurd ha (List.not_mem_nil a)
    | cons b t₂ =>
      by_cases hab : a = b
      · subst hab
        have hp' : t.Perm t₂ := hp.cons_inv
        rw [ih hp' (List.pairwise_cons.mp h1).2 (List.pairwise_cons.mp h2).2]
      · exfalso
        have hb : b ∈ a :: t := hp.symm.subset (List.mem_cons_self b t₂)
        have hbt : b ∈ t := by
          rcases List.mem_cons.mp hb with h | h
          · exact absurd h.symm hab
          · exact h
        have hat₂ : a ∈ t₂ := by
          rcases List.mem_cons.mp ha with h | h
          · exact absurd h hab
          · exact h
        exact hR a b ((List.pairwise_cons.mp h1).1 b hbt)
          ((List.pairwise_cons.mp h2).1 a hat₂)

/-- `find?` with a predicate that forces the key `f` to equal `f x` returns
exactly the member `x` when the keys of the list are distinct (the point
lookup `SELECT ... WHERE id = ?` against a PRIMARY KEY column). -/
theorem find?_eq_of_nodup (f : α → String) (q : α → Bool) {x : α}
    (hqx : q x = true) (hq : ∀ r, q r = true → f r = f x) :
    ∀ {l : List α}, (l.map f).Nodup → x ∈ l → l.find? q = some x := by
  intro l
  induction l with
  | nil => intro _ hx; cases hx
  | cons a t ih =>
    intro hn hx
    have hn' := List.nodup_cons.mp hn
    by_cases hqa : q a = true
    · rw [List.find?_cons_of_pos t hqa]
      have hax : a = x := by
        rcases List.mem_cons.mp hx with h | h
        · exact h.symm
        · exfalso
          have : f a ∈ t.map f := by
            rw [hq a hqa]
            exact List.mem_map_of_mem f h
          exact hn'.1 this
      rw [hax]
    · rw [List.find?_cons_of_neg t hqa]
      have hxt : x ∈ t := by
        rcases List.mem_cons.mp hx with h | h
        · exact absurd (h ▸ hqx) hqa
        · exact h
      exact ih hn'.2 hxt

/-- A `Nodup` key set is preserved under permutation. -/
theorem nodup_map_of_perm (f : α → β) {l₁ l₂ : List α} (hp : l₁.Perm l₂)
    (hn : (l₁.map f).Nodup) : (l₂.map f).Nodup :=
  ((hp.map f).nodup_iff).mp hn

/-- A `Nodup` key set is preserved by `filter`. -/
theorem nodup_map_filter (f : α → β) (p : α → Bool) {l : List α}
    (hn : (l.map f).Nodup) : ((l.filter p).map f).Nodup :=
  List.Nodup.sublist ((l.filter_sublist).map f) hn

end ListHelpers

section StrictSort

variable {ρ κ : Type} [LinearOrder κ] (key : ρ → κ) (rid : ρ → String)
variable (desc : Bool)

/-- A weakly sorted list with pairwise-distinct tie-break keys is strictly
sorted. -/
theorem pairwise_rowLT_of_nodup_rid {l : List ρ}
    (hs : l.Pairwise (rowLE key rid desc)) (hn : (l.map rid).Nodup) :
    l.Pairwise (rowLT key rid desc) := by
  have hne : l.Pairwise (fun a b => rid a ≠ rid b) := List.pairwise_map.mp hn
  exact (hs.and hne).imp
    (fun h => rowLT_of_rowLE_of_ne_rid key rid desc h.1 h.2)

/-- A weakly sorted list with pairwise-distinct order keys is strictly
sorted. -/
theorem pairwise_rowLT_of_pairwise_key_ne {l : List ρ}
    (hs : l.Pairwise (rowLE key rid desc))
    (hk : l.Pairwise (fun a b => key a ≠ key b)) :
    l.Pairwise (rowLT key rid desc) :=
  (hs.and hk).imp (fun h => rowLT_of_rowLE_of_ne_key key rid desc h.1 h.2)

/-- In a strictly sorted list decomposed around an element `x`, the rows
strictly after `x` in the sort order are exactly the suffix after `x`: the
keyset `WHERE` clause cuts the sorted result set at the cursor row. -/
theorem filter_rowLT_eq_suffix {P Q : List ρ} {x : ρ}
    (hS : (P ++ x :: Q).Pairwise (rowLT key rid desc)) :
    (P ++ x :: Q).filter (fun r => decide (rowLT key rid desc x r)) = Q := by
  rw [List.filter_append]
  rcases List.pairwise_append.mp hS with ⟨_, hxQ, hcross⟩
  have hP : P.filter (fun r => decide (rowLT key rid desc x r)) = [] := by
    rw [List.filter_eq_nil_iff]
    intro a ha
    simp only [decide_eq_true_eq]
    intro hlt
    exact rowLT_asymm key rid desc hlt (hcross a ha x (List.mem_cons_self x Q))
  have hxx : ¬ (decide (rowLT key rid desc x x) = true) := by
    simp only [decide_eq_true_eq]
    exact rowLT_irrefl key rid desc x
  rw [hP, List.nil_append, List.filter_cons, if_neg hxx, List.filter_eq_self.mpr]
  intro a ha
  simp only [decide_eq_true_eq]
  exact (List.pairwise_cons.mp hxQ).1 a ha

/-- Sorting the filtered table equals filtering the sorted table, provided
both sides are strictly sorted (so that the sorted result is unique). -/
theorem insertionSort_filter_comm (p : ρ → Bool) (l : List ρ)
    (hstrict :
      (List.insertionSort (rowLE key rid desc) l).Pairwise (rowLT key rid desc))
    (hstrictF :
      (List.insertionSort (rowLE key rid desc) (l.filter p)).Pairwise
        (rowLT key rid desc)) :
    List.insertionSort (rowLE key rid desc) (l.filter p) =
      (List.insertionSort (rowLE key rid desc) l).filter p := by
  apply eq_of_perm_of_pairwise_asymm
    (fun a b h1 h2 => rowLT_asymm key rid desc h1 h2)
  · exact (List.perm_insertionSort _ _).trans
      ((List.Perm.filter p (List.perm_insertionSort _ l)).symm)
  · exact hstrictF
  · exact hstrict.filter p

end StrictSort

/-- For `limit ≥ 1` the page tail never hits the `IndexError` branch: the page
is the first `limit` rows, `has_more` reports whether a probe row beyond them
existed, and the cursor is the id of the last row of the page (none when the
page is empty). -/
theorem finishPage_ok {ρ : Type} (T : List ρ) (rid : ρ → String) (limit : Nat)
    (hlim : 1 ≤ limit) :
    finishPage T rid limit =
      .ok ⟨T.take limit, decide (limit < T.length),
           (T.take limit).getLast?.map rid⟩ := by
  have h1 : (T.take (limit + 1)).take limit = T.take limit := by
    rw [List.take_take]
    congr 1
    omega
  by_cases hT : T = []
  · subst hT
    simp [finishPage]
  · have hd : T.take limit ≠ [] := by
      rw [Ne, List.take_eq_nil_iff]
      push_neg
      exact ⟨by omega, hT⟩
    have hie : (T.take limit).isEmpty = false := List.isEmpty_eq_false.mpr hd
    have hgl : (T.take limit).getLast? = some ((T.take limit).getLast hd) :=
      List.getLast?_eq_getLast _ hd
    have hmm : (decide (limit < (T.take (limit + 1)).length)) =
        decide (limit < T.length) := by
      apply decide_eq_decide.mpr
      rw [List.length_take]
      omega
    simp only [finishPage, h1, hie, hgl, hmm, Bool.not_false, Bool.or_true,
      if_true, Option.map_some']

/-- Walking a listing whose every step pages a fixed sorted result set `S`
recovers the suffix of `S` after the cursor row; with enough fuel the walk
reaches a `has_more = false` page and returns the whole remaining suffix. -/
theorem genWalk_finishes {ρ : Type}
    (step : Option String → Except StoreErr (Page ρ)) (rid : ρ → String)
    (S : List ρ) (limit : Nat) (hlim : 1 ≤ limit)
    (h_after : ∀ P x Q, S = P ++ x :: Q →
      step (some (rid x)) = finishPage Q rid limit) :
    ∀ fuel (Q : List ρ) (after : Option String),
      step after = finishPage Q rid limit → (∃ Pre, S = Pre ++ Q) →
      Q.length + 1 ≤ fuel → genWalk step fuel after = some Q := by
  intro fuel
  induction fuel with
  | zero =>
    intro Q after _ _ hf
    omega
  | succ fuel ih =>
    intro Q after hstep hpre hf
    rw [genWalk, hstep, finishPage_ok Q rid limit hlim]
    by_cases hQ : limit < Q.length
    · have hQne : Q ≠ [] := by
        intro h
        rw [h] at hQ
        simp at hQ
      have hd : Q.take limit ≠ [] := by
        rw [Ne, List.take_eq_nil_iff]
        push_neg
        exact ⟨by omega, hQne⟩
      have hgl : (Q.take limit).getLast? =
          some ((Q.take limit).getLast hd) := List.getLast?_eq_getLast _ hd
      have hQdecomp : Q = (Q.take limit).dropLast ++
          ((Q.take limit).getLast hd) :: Q.drop limit := by
        conv_lhs => rw [← List.take_append_drop limit Q]
        conv_lhs => rw [← List.dropLast_append_getLast hd]
        rw [List.append_assoc, List.singleton_append]
      obtain ⟨Pre, hS⟩ := hpre
      have hSdecomp : S = (Pre ++ (Q.take limit).dropLast) ++
          ((Q.take limit).getLast hd) :: Q.drop limit := by
        rw [hS]
        conv_lhs => rw [hQdecomp]
        rw [List.append_assoc]
      have hstep' := h_after _ _ _ hSdecomp
      have hpre' : ∃ Pre', S = Pre' ++ Q.drop limit := by
        refine ⟨Pre ++ Q.take limit, ?_⟩
        rw [hS, List.append_assoc, List.take_append_drop]
      have hf' : (Q.drop limit).length + 1 ≤ fuel := by
        rw [List.length_drop]
        omega
      have hrec := ih (Q.drop limit) _ hstep' hpre' hf'
      simp only [hgl, Option.map_some', decide_eq_true_eq, hQ, if_true,
        decide_eq_true_eq]
      rw [hrec]
      simp only [Option.map_some']
      rw [List.take_append_drop]
    · have hdec : decide (limit < Q.length) = false := by
        simp [hQ]
      simp only [hdec]
      rw [if_neg (by simp)]
      rw [List.take_of_length_le (not_lt.mp hQ)]

theorem threadsMatching_none (db : DB) (order : String) :
    threadsMatching db none order =
      List.insertionSort (rowLE ThreadRow.updKey ThreadRow.id (isDesc order))
        db.threads := rfl

/-- With distinct thread ids (the PRIMARY KEY), the sorted full result set is
strictly sorted. -/
theorem pairwise_rowLT_threadsMatching_none (db : DB) (order : String)
    (hn : (db.threads.map ThreadRow.id).Nodup) :
    (threadsMatching db none order).Pairwise
      (rowLT ThreadRow.updKey ThreadRow.id (isDesc order)) := by
  apply pairwise_rowLT_of_nodup_rid
  · exact List.sorted_insertionSort _ _
  · exact nodup_map_of_perm _ (List.perm_insertionSort _ _).symm hn

/-- Resolving a (non-empty, present) thread cursor produces exactly the rows
strictly after the cursor row in the sort order. -/
theorem threadsMatching_after (db : DB) (order : String) {x : ThreadRow}
    (hn : (db.threads.map ThreadRow.id).Nodup) (hx : x ∈ db.threads)
    (hne : x.id ≠ "") :
    threadsMatching db (some x.id) order =
      (threadsMatching db none order).filter
        (fun r =>
          decide (rowLT ThreadRow.updKey ThreadRow.id (isDesc order) x r)) := by
  have hfind : db.threads.find? (fun r => decide (r.id = x.id)) = some x :=
    find?_eq_of_nodup ThreadRow.id _ (by simp) (fun r hr => by simpa using hr)
      hn hx
  have hfc : db.threads.filter (fun r =>
        decide (dLT (isDesc order) x.updKey r.updKey) ||
          (decide (r.updated_at = x.updated_at) &&
            decide (dLT (isDesc order) x.id.data r.id.data))) =
      db.threads.filter (fun r =>
        decide (rowLT ThreadRow.updKey ThreadRow.id (isDesc order) x r)) := by
    apply List.filter_congr
    intro r _
    by_cases h1 : dLT (isDesc order) x.updKey r.updKey
    · simp [rowLT, h1]
    · by_cases h2 : r.updated_at = x.updated_at
      · by_cases h3 : dLT (isDesc order) x.id.data r.id.data <;>
          simp [rowLT, ThreadRow.updKey, h1, h2, h3]
      · have h2' : ¬ x.updKey = r.updKey :=
          fun hd => h2 (string_eq_of_data_eq hd.symm)
        simp [rowLT, h1, h2, h2']
  have hstrict := pairwise_rowLT_threadsMatching_none db order hn
  rw [threadsMatching_none] at hstrict
  have hstrictF : (List.insertionSort
        (rowLE ThreadRow.updKey ThreadRow.id (isDesc order))
        (db.threads.filter (fun r =>
          decide (rowLT ThreadRow.updKey ThreadRow.id (isDesc order) x r)))).Pairwise
      (rowLT ThreadRow.updKey ThreadRow.id (isDesc order)) := by
    apply pairwise_rowLT_of_nodup_rid
    · exact List.sorted_insertionSort _ _
    · exact nodup_map_of_perm _ (List.perm_insertionSort _ _).symm
        (nodup_map_filter _ _ hn)
  unfold threadsMatching
  simp only [if_neg hne, hfind]
  rw [hfc]
  exact insertionSort_filter_comm _ _ _ _ _ hstrict hstrictF

theorem load_threads_after (db : DB) (limit : Nat) (order : String)
    {x : ThreadRow} {P Q : List ThreadRow}
    (hn : (db.threads.map ThreadRow.id).Nodup)
    (hids : ∀ r ∈ db.threads, r.id ≠ "")
    (hdecomp : threadsMatching db none order = P ++ x :: Q) :
    load_threads db limit (some x.id) order =
      finishPage Q ThreadRow.id limit := by
  have hxS : x ∈ threadsMatching db none order := by
    rw [hdecomp]
    exact List.mem_append.mpr (Or.inr (List.mem_cons_self x Q))
  have hx : x ∈ db.threads := (List.perm_insertionSort _ _).subset hxS
  have hS : (P ++ x :: Q).Pairwise
      (rowLT ThreadRow.updKey ThreadRow.id (isDesc order)) := by
    rw [← hdecomp]
    exact pairwise_rowLT_threadsMatching_none db order hn
  unfold load_threads
  rw [threadsMatching_after db order hn hx (hids x hx), hdecomp,
    filter_rowLT_eq_suffix _ _ _ hS]

/-- Claim C1 (threads half, amended): under the PRIMARY KEY invariant and with
no empty-string ids, the cursor walk over `load_threads` terminates and
returns exactly the full sorted result set. -/
theorem walkThreads_complete (db : DB) (limit : Nat) (order : String)
    (fuel : Nat) (hlim : 1 ≤ limit)
    (hn : (db.threads.map ThreadRow.id).Nodup)
    (hids : ∀ r ∈ db.threads, r.id ≠ "")
    (hfuel : db.threads.length + 1 ≤ fuel) :
    walkThreads db limit order fuel = some (threadsMatching db none order) := by
  have hlen : (threadsMatching db none order).length = db.threads.length :=
    (List.perm_insertionSort _ _).length_eq
  exact genWalk_finishes (fun a => load_threads db limit a order) ThreadRow.id
    (threadsMatching db none order) limit hlim
    (fun P x Q hdecomp => load_threads_after db limit order hn hids hdecomp)
    fuel (threadsMatching db none order) none rfl ⟨[], rfl⟩ (by omega)

theorem itemsMatching_none (db : DB) (tid : String) (order : String) :
    itemsMatching db tid none order =
      List.insertionSort (rowLE ItemRow.position ItemRow.id (isDesc order))
        (scopedItems db tid) := rfl

/-- With pairwise-distinct positions inside the thread (the invariant the
append-only assignment maintains for live rows), the sorted scoped result set
is strictly sorted. -/
theorem pairwise_rowLT_itemsMatching_none (db : DB) (tid : String)
    (order : String)
    (hpos : (scopedItems db tid).Pairwise (fun a b => a.position ≠ b.position)) :
    (itemsMatching db tid none order).Pairwise
      (rowLT ItemRow.position ItemRow.id (isDesc order)) := by
  apply pairwise_rowLT_of_pairwise_key_ne
  · exact List.sorted_insertionSort _ _
  · exact (List.Perm.pairwise_iff (fun {a b} h => Ne.symm h)
      (List.perm_insertionSort _ _).symm).mp hpos

/-- Resolving a (non-empty, present) item cursor selects exactly the scoped
rows strictly after the cursor row in the sort order.  This needs the
distinct-positions invariant: the `position <cmp> v` clause has no id
tie-break, so it agrees with the strict row order only when no other live row
of the thread shares the cursor row's position. -/
theorem itemsMatching_after (db : DB) (tid : String) (order : String)
    {x : ItemRow}
    (hn : (db.items.map ItemRow.id).Nodup) (hx : x ∈ db.items)
    (hxt : x.thread_id = tid) (hne : x.id ≠ "")
    (hpos : (scopedItems db tid).Pairwise (fun a b => a.position ≠ b.position)) :
    itemsMatching db tid (some x.id) order =
      (itemsMatching db tid none order).filter
        (fun r =>
          decide (rowLT ItemRow.position ItemRow.id (isDesc order) x r)) := by
  have hfind : db.items.find? (fun r =>
      decide (r.thread_id = tid) && decide (r.id = x.id)) = some x := by
    apply find?_eq_of_nodup ItemRow.id _ (by simp [hxt])
      (fun r hr => by
        simp only [Bool.and_eq_true, decide_eq_true_eq] at hr
        exact hr.2)
      hn hx
  have hxs : x ∈ scopedItems db tid :=
    List.mem_filter.mpr ⟨hx, by simp [hxt]⟩
  have hfc : (scopedItems db tid).filter (fun r =>
        decide (dLT (isDesc order) x.position r.position)) =
      (scopedItems db tid).filter (fun r =>
        decide (rowLT ItemRow.position ItemRow.id (isDesc order) x r)) := by
    apply List.filter_congr
    intro r hr
    by_cases hk : r.position = x.position
    · have hrx : r = x := by
        by_contra hne2
        exact (List.Pairwise.forall (fun {a b} h => Ne.symm h) hpos hr hxs hne2)
          hk
      subst hrx
      have h1 : decide (dLT (isDesc order) r.position r.position) = false :=
        decide_eq_false (dLT_irrefl _ _)
      have h2 : decide (rowLT ItemRow.position ItemRow.id (isDesc order) r r) =
          false := decide_eq_false (rowLT_irrefl _ _ _ r)
      rw [h1, h2]
    · have hk' : ¬ x.position = r.position := fun h => hk h.symm
      by_cases h1 : dLT (isDesc order) x.position r.position <;>
        simp [rowLT, h1, hk']
  have hstrict := pairwise_rowLT_itemsMatching_none db tid order hpos
  rw [itemsMatching_none] at hstrict
  have hstrictF : (List.insertionSort
        (rowLE ItemRow.position ItemRow.id (isDesc order))
        ((scopedItems db tid).filter (fun r =>
          decide (rowLT ItemRow.position ItemRow.id (isDesc order) x r)))).Pairwise
      (rowLT ItemRow.position ItemRow.id (isDesc order)) := by
    apply pairwise_rowLT_of_pairwise_key_ne
    · exact List.sorted_insertionSort _ _
    · exact (List.Perm.pairwise_iff (fun {a b} h => Ne.symm h)
        (List.perm_insertionSort _ _).symm).mp (hpos.filter _)
  unfold itemsMatching
  simp only [if_neg hne, hfind]
  rw [hfc]
  exact insertionSort_filter_comm _ _ _ _ _ hstrict hstrictF

theorem load_thread_items_after (db : DB) (tid : String) (limit : Nat)
    (order : String) {x : ItemRow} {P Q : List ItemRow}
    (hn : (db.items.map ItemRow.id).Nodup)
    (hids : ∀ r ∈ db.items, r.id ≠ "")
    (hpos : (scopedItems db tid).Pairwise (fun a b => a.position ≠ b.position))
    (hdecomp : itemsMatching db tid none order = P ++ x :: Q) :
    load_thread_items db tid (some x.id) limit order =
      finishPage Q ItemRow.id limit := by
  have hxS : x ∈ itemsMatching db tid none order := by
    rw [hdecomp]
    exact List.mem_append.mpr (Or.inr (List.mem_cons_self x Q))
  have hxscoped : x ∈ scopedItems db tid :=
    (List.perm_insertionSort _ _).subset hxS
  have hx : x ∈ db.items := (List.mem_filter.mp hxscoped).1
  have hxt : x.thread_id = tid := by
    have := (List.mem_filter.mp hxscoped).2
    simpa using this
  have hS : (P ++ x :: Q).Pairwise
      (rowLT ItemRow.position ItemRow.id (isDesc order)) := by
    rw [← hdecomp]
    exact pairwise_rowLT_itemsMatching_none db tid order hpos
  unfold load_thread_items
  rw [itemsMatching_after db tid order hn hx hxt (hids x hx) hpos, hdecomp,
    filter_rowLT_eq_suffix _ _ _ hS]

/-- Claim C1 (items half, amended): under the PRIMARY KEY invariant, with no
empty-string ids and with distinct positions inside the thread, the cursor
walk over `load_thread_items` terminates and returns exactly the full sorted
scoped result set. -/
theorem walkItems_complete (db : DB) (tid : String) (limit : Nat)
    (order : String) (fuel : Nat) (hlim : 1 ≤ limit)
    (hn : (db.items.map ItemRow.id).Nodup)
    (hids : ∀ r ∈ db.items, r.id ≠ "")
    (hpos : (scopedItems db tid).Pairwise (fun a b => a.position ≠ b.position))
    (hfuel : db.items.length + 1 ≤ fuel) :
    walkItems db tid limit order fuel =
      some (itemsMatching db tid none order) := by
  have hlen : (itemsMatching db tid none order).length =
      (scopedItems db tid).length :=
    (List.perm_insertionSort _ _).length_eq
  have hlen2 : (scopedItems db tid).length ≤ db.items.length :=
    List.length_filter_le _ _
  exact genWalk_finishes (fun a => load_thread_items db tid a limit order)
    ItemRow.id (itemsMatching db tid none order) limit hlim
    (fun P x Q hdecomp =>
      load_thread_items_after db tid limit order hn hids hpos hdecomp)
    fuel (itemsMatching db tid none order) none rfl ⟨[], rfl⟩ (by omega)

/-- After the upsert's conflict branch, the point lookup by id finds a row
carrying the new document. -/
theorem find?_map_update_data (t : ThreadVal) (now : String) :
    ∀ (l : List ThreadRow), l.any (fun r => decide (r.id = t.id)) = true →
      ∃ row, (l.map (fun r =>
          if r.id = t.id then { r with data := t.doc, updated_at := now }
          else r)).find? (fun r => decide (r.id = t.id)) = some row
        ∧ row.data = t.doc := by
  intro l
  induction l with
  | nil =>
    intro h
    simp at h
  | cons a l ih =>
    intro h
    by_cases ha : a.id = t.id
    · refine ⟨{ a with data := t.doc, updated_at := now }, ?_, rfl⟩
      rw [List.map_cons, if_pos ha]
      apply List.find?_cons_of_pos
      simpa using ha
    · rw [List.map_cons, if_neg ha, List.find?_cons_of_neg _ (by simpa using ha)]
      apply ih
      simp only [List.any_cons, Bool.or_eq_true, decide_eq_true_eq] at h
      rcases h with h | h
      · exact absurd h ha
      · exact h

/-- C8 (confirmed): `save_thread` followed by `load_thread` of the same id
returns the saved serialized document unchanged — for every database state,
every thread value (whatever fields its opaque document carries) and every
clock reading, on both the insert and the conflict branch of the upsert. -/
theorem claim_save_load_round_trip (db : DB) (t : ThreadVal) (now : String) :
    load_thread (save_thread db t now) t.id = .ok t.doc := by
  simp only [save_thread]
  by_cases h : db.threads.any (fun r => decide (r.id = t.id)) = true
  · rw [if_pos h]
    obtain ⟨row, hfind, hdata⟩ := find?_map_update_data t now db.threads h
    unfold load_thread
    rw [hfind]
    exact congrArg Except.ok hdata
  · rw [if_neg h]
    have hnone : db.threads.find? (fun r => decide (r.id = t.id)) = none :=
      List.find?_eq_none.mpr (fun r hr hp =>
        h (List.any_eq_true.mpr ⟨r, hr, hp⟩))
    unfold load_thread
    rw [List.find?_append, hnone, List.find?_cons_of_pos _ (by simp)]
    rfl

/-- C10 (confirmed): when a thread id already exists, the upsert's conflict
branch replaces only `data` and `updated_at`: every row keeps its id and its
stored `created_at` (whatever creation time the new value carries), rows not
matching the id are untouched, and the items table is untouched. -/
theorem claim_save_thread_keeps_created_at (db : DB) (t : ThreadVal)
    (now : String)
    (h : db.threads.any (fun r => decide (r.id = t.id)) = true) :
    (save_thread db t now).threads.map (fun r => (r.id, r.created_at)) =
        db.threads.map (fun r => (r.id, r.created_at))
    ∧ (∀ r ∈ (save_thread db t now).threads, r.id = t.id →
        r.data = t.doc ∧ r.updated_at = now)
    ∧ (∀ r ∈ (save_thread db t now).threads, r.id ≠ t.id → r ∈ db.threads)
    ∧ (save_thread db t now).items = db.items := by
  simp only [save_thread]
  rw [if_pos h]
  refine ⟨?_, ?_, ?_, rfl⟩
  · rw [List.map_map]
    apply List.map_congr_left
    intro r _
    by_cases hr : r.id = t.id <;> simp [hr]
  · intro r hr hid
    obtain ⟨s, hs, hsr⟩ := List.mem_map.mp hr
    by_cases hsid : s.id = t.id
    · rw [if_pos hsid] at hsr
      rw [← hsr]
      exact ⟨rfl, rfl⟩
    · rw [if_neg hsid] at hsr
      rw [← hsr] at hid
      exact absurd hid hsid
  · intro r hr hid
    obtain ⟨s, hs, hsr⟩ := List.mem_map.mp hr
    by_cases hsid : s.id = t.id
    · rw [if_pos hsid] at hsr
      rw [← hsr] at hid
      simp at hid
      exact absurd hsid hid
    · rw [if_neg hsid] at hsr
      rw [← hsr]
      exact hs

/-- Closed witness for C10 at a concrete database. -/
theorem claim_save_thread_keeps_created_at_witness :
    (save_thread ⟨[⟨"t1", "old", "c0", "u0"⟩], []⟩ ⟨"t1", "new", some "c9"⟩
        "u9").threads.map (fun r => (r.id, r.created_at)) =
      ([⟨"t1", "old", "c0", "u0"⟩] : List ThreadRow).map
        (fun r => (r.id, r.created_at)) :=
  (claim_save_thread_keeps_created_at ⟨[⟨"t1", "old", "c0", "u0"⟩], []⟩
    ⟨"t1", "new", some "c9"⟩ "u9" (by decide)).1

/-- C6 (confirmed): a successful `delete_thread` removes the thread row and —
through the `ON DELETE CASCADE` foreign key — every item of the thread, so
every subsequent `load_item` against that thread (any item id) and
`load_thread` fail with NotFound; when no thread row matches, the call fails
with NotFound, and since the `DELETE` matched nothing, no row of any table is
affected (the error branch returns the state untouched). -/
theorem claim_delete_thread_cascade (db : DB) (tid : String) :
    (∀ db', delete_thread db tid = .ok db' →
      (∀ iid, load_item db' tid iid = .error .notFound)
      ∧ load_thread db' tid = .error .notFound
      ∧ (∀ r ∈ db'.items, r.thread_id ≠ tid))
    ∧ ((∀ r ∈ db.threads, r.id ≠ tid) →
      delete_thread db tid = .error .notFound) := by
  constructor
  · intro db' h
    unfold delete_thread at h
    by_cases hany : db.threads.any (fun r => decide (r.id = tid)) = true
    · rw [if_pos hany] at h
      injection h with h'
      subst h'
      refine ⟨?_, ?_, ?_⟩
      · intro iid
        unfold load_item
        have hfind : (db.items.filter
            (fun r => !decide (r.thread_id = tid))).find?
            (fun r => decide (r.thread_id = tid) && decide (r.id = iid)) =
            none := by
          apply List.find?_eq_none.mpr
          intro r hr
          have hr2 := List.mem_filter.mp hr
          simp only [Bool.not_eq_true', decide_eq_false_iff_not] at hr2
          simp [hr2.2]
        rw [hfind]
      · unfold load_thread
        have hfind : (db.threads.filter
            (fun r => !decide (r.id = tid))).find?
            (fun r => decide (r.id = tid)) = none := by
          apply List.find?_eq_none.mpr
          intro r hr
          have hr2 := List.mem_filter.mp hr
          simp only [Bool.not_eq_true', decide_eq_false_iff_not] at hr2
          simp [hr2.2]
        rw [hfind]
      · intro r hr
        have hr2 := List.mem_filter.mp hr
        simp only [Bool.not_eq_true', decide_eq_false_iff_not] at hr2
        exact hr2.2
    · rw [if_neg hany] at h
      exact Except.noConfusion h
  · intro hno
    unfold delete_thread
    rw [if_neg (by
      simp only [List.any_eq_true, decide_eq_true_eq]
      push_neg
      exact hno)]

/-- C7 (confirmed): an `after` cursor that resolves to no row — for threads,
no thread has that id; for items, no row of the given thread has that id — is
silently ignored: the call behaves exactly as if `after` were absent (the
same holds for the empty-string cursor, which Python truthiness skips before
the lookup). -/
theorem claim_cursor_best_effort (db : DB) (tid : String) (limit : Nat)
    (a : String) (order : String)
    (hT : ∀ r ∈ db.threads, r.id ≠ a)
    (hI : ∀ r ∈ db.items, ¬ (r.thread_id = tid ∧ r.id = a)) :
    load_threads db limit (some a) order = load_threads db limit none order
    ∧ load_thread_items db tid (some a) limit order =
        load_thread_items db tid none limit order := by
  constructor
  · unfold load_threads
    congr 1
    unfold threadsMatching
    by_cases ha : a = ""
    · simp only [if_pos ha]
    · have hfind : db.threads.find? (fun r => decide (r.id = a)) = none :=
        List.find?_eq_none.mpr (fun r hr => by simpa using hT r hr)
      simp only [if_neg ha, hfind]
  · unfold load_thread_items
    congr 1
    unfold itemsMatching
    by_cases ha : a = ""
    · simp only [if_pos ha]
    · have hfind : db.items.find? (fun r =>
          decide (r.thread_id = tid) && decide (r.id = a)) = none := by
        apply List.find?_eq_none.mpr
        intro r hr
        simp only [Bool.and_eq_true, decide_eq_true_eq]
        exact fun hp => hI r hr ⟨hp.1, hp.2⟩
      simp only [if_neg ha, hfind]

/-- Closed witness for C7: a dangling cursor against a concrete database. -/
theorem claim_cursor_best_effort_witness :
    load_threads ⟨[⟨"t1", "d", "c", "u"⟩], [⟨"i1", "t1", "e", "c", 0⟩]⟩ 2
        (some "gone") "desc" =
      load_threads ⟨[⟨"t1", "d", "c", "u"⟩], [⟨"i1", "t1", "e", "c", 0⟩]⟩ 2
        none "desc"
    ∧ load_thread_items ⟨[⟨"t1", "d", "c", "u"⟩], [⟨"i1", "t1", "e", "c", 0⟩]⟩
        "t1" (some "gone") 2 "desc" =
      load_thread_items ⟨[⟨"t1", "d", "c", "u"⟩], [⟨"i1", "t1", "e", "c", 0⟩]⟩
        "t1" none 2 "desc" :=
  claim_cursor_best_effort ⟨[⟨"t1", "d", "c", "u"⟩], [⟨"i1", "t1", "e", "c", 0⟩]⟩
    "t1" 2 "gone" "desc" (by decide) (by decide)

/-- C9 (corrected, amended): for an item with a non-empty id, `save_item`
with no matching `(thread_id, id)` row fails with NotFound, and a successful
call replaces only the `data` column of the matching rows — ids, thread ids,
positions, created_at and all non-matching rows are untouched, as is the
threads table; an item with an empty (falsy) id fails with InvalidArgument
(`ValueError`) before the update runs, even when no row matches. -/
theorem claim_save_item_update (db : DB) (tid : String) (item : ItemVal) :
    (item.id = "" → save_item db tid item = .error .invalidArg)
    ∧ (item.id ≠ "" →
        ((∀ r ∈ db.items, ¬ (r.thread_id = tid ∧ r.id = item.id)) →
          save_item db tid item = .error .notFound)
        ∧ (∀ db', save_item db tid item = .ok db' →
            db'.threads = db.threads
            ∧ db'.items.map
                (fun r => (r.id, r.thread_id, r.position, r.created_at)) =
              db.items.map
                (fun r => (r.id, r.thread_id, r.position, r.created_at))
            ∧ (∀ r ∈ db'.items, r.thread_id = tid ∧ r.id = item.id →
                r.data = item.doc)
            ∧ (∀ r ∈ db'.items, ¬ (r.thread_id = tid ∧ r.id = item.id) →
                r ∈ db.items))) := by
  refine ⟨?_, ?_⟩
  · intro h
    unfold save_item
    rw [if_pos h]
  · intro hne
    constructor
    · intro hnomatch
      unfold save_item
      have hany : ¬ (db.items.any (fun r =>
          decide (r.thread_id = tid) && decide (r.id = item.id)) = true) := by
        simp only [List.any_eq_true, Bool.and_eq_true, decide_eq_true_eq]
        rintro ⟨r, hr, h1, h2⟩
        exact hnomatch r hr ⟨h1, h2⟩
      rw [if_neg hne, if_neg hany]
    · intro db' h
      unfold save_item at h
      rw [if_neg hne] at h
      by_cases hany : db.items.any (fun r =>
          decide (r.thread_id = tid) && decide (r.id = item.id)) = true
      · rw [if_pos hany] at h
        injection h with h'
        subst h'
        refine ⟨rfl, ?_, ?_, ?_⟩
        · rw [List.map_map]
          apply List.map_congr_left
          intro r _
          by_cases hr : r.thread_id = tid ∧ r.id = item.id <;> simp [hr]
        · intro r hr hmatch
          obtain ⟨s, hs, hsr⟩ := List.mem_map.mp hr
          by_cases hsid : s.thread_id = tid ∧ s.id = item.id
          · rw [if_pos hsid] at hsr
            rw [← hsr]
          · rw [if_neg hsid] at hsr
            rw [← hsr] at hmatch
            exact absurd hmatch hsid
        · intro r hr hnm
          obtain ⟨s, hs, hsr⟩ := List.mem_map.mp hr
          by_cases hsid : s.thread_id = tid ∧ s.id = item.id
          · rw [if_pos hsid] at hsr
            rw [← hsr] at hnm
            exact absurd hsid hnm
          · rw [if_neg hsid] at hsr
            rw [← hsr]
            exact hs
      · rw [if_neg hany] at h
        exact Except.noConfusion h

/-- Counterexample to C9 as stated: with an empty item id and no matching row
(the database is empty), `save_item` fails with InvalidArgument
(`ValueError`), not NotFound (`KeyError`) — `if not item_id` fires before the
UPDATE. -/
theorem claim_save_item_update_cex :
    save_item ⟨[], []⟩ "t" ⟨"", "doc", none⟩ = .error .invalidArg
    ∧ (Except.error StoreErr.invalidArg : Except StoreErr DB) ≠
        .error .notFound :=
  ⟨rfl, by decide⟩

/-- C2 (corrected, amended): whenever the positions of the thread's live rows
are pairwise distinct — the invariant the append-only assignment maintains —
the item listing (whose `after` clause is `position <cmp> v` with no id
tie-break) selects the same rows and returns the same page as the
spec-described composite predicate
`position <cmp> v OR (position = v AND id <cmp> after)`. -/
theorem claim_item_keyset_refinement (db : DB) (tid : String)
    (after : Option String) (limit : Nat) (order : String)
    (hpos : (scopedItems db tid).Pairwise (fun a b => a.position ≠ b.position)) :
    load_thread_items db tid after limit order =
      load_thread_items_spec db tid after limit order := by
  unfold load_thread_items load_thread_items_spec
  congr 1
  unfold itemsMatching itemsMatchingSpec
  cases after with
  | none => rfl
  | some a =>
    by_cases ha : a = ""
    · simp only [if_pos ha]
    · cases hfind : db.items.find? (fun r =>
          decide (r.thread_id = tid) && decide (r.id = a)) with
      | none => simp only [if_neg ha, hfind]
      | some arow =>
        simp only [if_neg ha, hfind]
        congr 1
        apply List.filter_congr
        intro r hr
        have harow := List.find?_some hfind
        simp only [Bool.and_eq_true, decide_eq_true_eq] at harow
        have hamem : arow ∈ scopedItems db tid :=
          List.mem_filter.mpr
            ⟨List.mem_of_find?_eq_some hfind, by simp [harow.1]⟩
        by_cases hk : r.position = arow.position
        · have hrx : r = arow := by
            by_contra hne2
            exact (List.Pairwise.forall (fun {x y} h => Ne.symm h) hpos hr
              hamem hne2) hk
          subst hrx
          have h1 : decide (dLT (isDesc order) r.position r.position) =
              false := decide_eq_false (dLT_irrefl _ _)
          have h2 : decide (dLT (isDesc order) a.data r.id.data) = false := by
            rw [harow.2]
            exact decide_eq_false (dLT_irrefl _ _)
          rw [h1, h2]
          simp
        · simp [hk]

/-- Counterexample to C2 as stated: with two live rows of the thread sharing
position 0, the implemented `position < v` clause drops the tied row that the
spec's composite predicate keeps, so the two listings disagree. -/
theorem claim_item_keyset_refinement_cex :
    load_thread_items ⟨[⟨"t", "d", "c", "u"⟩],
        [⟨"a", "t", "d1", "c", 0⟩, ⟨"b", "t", "d2", "c", 0⟩]⟩ "t" (some "b")
      10 "desc" = .ok ⟨[], false, none⟩
    ∧ load_thread_items_spec ⟨[⟨"t", "d", "c", "u"⟩],
        [⟨"a", "t", "d1", "c", 0⟩, ⟨"b", "t", "d2", "c", 0⟩]⟩ "t" (some "b")
      10 "desc" = .ok ⟨[⟨"a", "t", "d1", "c", 0⟩], false, some "a"⟩
    ∧ (Except.ok (⟨[], false, none⟩ : Page ItemRow) :
        Except StoreErr (Page ItemRow)) ≠
      .ok ⟨[⟨"a", "t", "d1", "c", 0⟩], false, some "a"⟩ :=
  ⟨rfl, rfl, by decide⟩

/-- Closed witness for C2 (amended) at a concrete database with distinct
positions. -/
theorem claim_item_keyset_refinement_witness :
    load_thread_items ⟨[⟨"t", "d", "c", "u"⟩],
        [⟨"a", "t", "d1", "c", 0⟩, ⟨"b", "t", "d2", "c", 1⟩]⟩ "t" (some "a")
      1 "asc" =
    load_thread_items_spec ⟨[⟨"t", "d", "c", "u"⟩],
        [⟨"a", "t", "d1", "c", 0⟩, ⟨"b", "t", "d2", "c", 1⟩]⟩ "t" (some "a")
      1 "asc" :=
  claim_item_keyset_refinement _ "t" (some "a") 1 "asc" (by decide)

/-- C4 (corrected, amended to `limit ≥ 1`): the engine fetches `limit + 1`
rows; `has_more` is true exactly when `limit + 1` rows came back; the page is
the first `limit` rows of the matching set (never the probe row); the cursor
is the id of the last row of the returned page and an empty page yields no
cursor.  (At `limit = 0` the code instead raises `IndexError` whenever any
row matches — see the counterexample.) -/
theorem claim_continuation_cursor (db : DB) (tid : String) (limit : Nat)
    (after : Option String) (order : String) (hlim : 1 ≤ limit) :
    load_threads db limit after order =
      .ok ⟨(threadsMatching db after order).take limit,
           decide (limit < (threadsMatching db after order).length),
           ((threadsMatching db after order).take limit).getLast?.map
             ThreadRow.id⟩
    ∧ load_thread_items db tid after limit order =
      .ok ⟨(itemsMatching db tid after order).take limit,
           decide (limit < (itemsMatching db tid after order).length),
           ((itemsMatching db tid after order).take limit).getLast?.map
             ItemRow.id⟩
    ∧ ((limit < (threadsMatching db after order).length) ↔
        ((threadsMatching db after order).take (limit + 1)).length =
          limit + 1)
    ∧ ((limit < (itemsMatching db tid after order).length) ↔
        ((itemsMatching db tid after order).take (limit + 1)).length =
          limit + 1) := by
  refine ⟨finishPage_ok _ _ _ hlim, finishPage_ok _ _ _ hlim, ?_, ?_⟩
  · rw [List.length_take]
    omega
  · rw [List.length_take]
    omega

/-- Counterexample to C4 as stated (`limit ≥ 0`): at `limit = 0` against a
table with one row, `data_rows` is empty while `has_more` is true, so
`data_rows[-1]` raises `IndexError` — the call fails instead of returning a
page. -/
theorem claim_continuation_cursor_cex :
    load_threads ⟨[⟨"a", "d", "c", "u"⟩], []⟩ 0 none "desc" =
      .error .indexError := rfl

/-- Closed witness for C4 (amended) at `limit = 1`. -/
theorem claim_continuation_cursor_witness :
    load_threads ⟨[⟨"a", "d", "c", "u"⟩], []⟩ 1 none "desc" =
      .ok ⟨(threadsMatching ⟨[⟨"a", "d", "c", "u"⟩], []⟩ none "desc").take 1,
           decide (1 <
             (threadsMatching ⟨[⟨"a", "d", "c", "u"⟩], []⟩ none "desc").length),
           ((threadsMatching ⟨[⟨"a", "d", "c", "u"⟩], []⟩ none
             "desc").take 1).getLast?.map ThreadRow.id⟩ :=
  (claim_continuation_cursor ⟨[⟨"a", "d", "c", "u"⟩], []⟩ "t" 1 none "desc"
    (by decide)).1

/-- C5 (corrected, amended): when the configured metadata store's mirror call
fails, the blob-side effect is kept — `create_attachment` leaves the written
directory (payload and side-file) in place, `delete_attachment` leaves the
directory removed — but the failure is NOT swallowed: `_maybe_save_metadata`
and `_maybe_delete_metadata` await the mirror with no exception handling, so
the call itself fails with the mirror's error. -/
theorem claim_attachment_mirror (fs : BlobFS)
    (attachment_id stored_name payload : String) (e : StoreErr)
    (hdir : fs.dirs.any (fun d => decide (d.attachment_id = attachment_id)) =
      true) :
    ((create_attachment fs attachment_id stored_name payload
        (some (.error e))).2 = .error e
      ∧ ∃ d ∈ (create_attachment fs attachment_id stored_name payload
          (some (.error e))).1.dirs,
          d.attachment_id = attachment_id ∧ d.payload = payload)
    ∧ ((delete_attachment fs attachment_id (some (.error e))).2 = .error e
      ∧ ∀ d ∈ (delete_attachment fs attachment_id (some (.error e))).1.dirs,
          d.attachment_id ≠ attachment_id) := by
  refine ⟨⟨rfl, ?_⟩, ?_, ?_⟩
  · exact ⟨⟨attachment_id, stored_name, payload, true⟩,
      List.mem_cons_self _ _, rfl, rfl⟩
  · unfold delete_attachment
    rw [if_pos hdir]
  · intro d hd
    unfold delete_attachment at hd
    rw [if_pos hdir] at hd
    have := List.mem_filter.mp hd
    simp only [Bool.not_eq_true', decide_eq_false_iff_not] at this
    exact this.2

/-- Counterexample to C5 as stated: a failing mirror save makes
`create_attachment` itself fail (the blob directory is nevertheless kept on
disk). -/
theorem claim_attachment_mirror_cex :
    (create_attachment ⟨[]⟩ "a1" "f.txt" "bytes"
        (some (.error .ioFailure))).2 = .error .ioFailure
    ∧ (create_attachment ⟨[]⟩ "a1" "f.txt" "bytes"
        (some (.error .ioFailure))).1.dirs =
      [⟨"a1", "f.txt", "bytes", true⟩] :=
  ⟨rfl, rfl⟩

/-- Closed witness for C5 (amended) at a concrete filesystem state. -/
theorem claim_attachment_mirror_witness :
    (delete_attachment ⟨[⟨"a1", "f", "p", true⟩]⟩ "a1"
        (some (.error .ioFailure))).2 = .error .ioFailure :=
  ((claim_attachment_mirror ⟨[⟨"a1", "f", "p", true⟩]⟩ "a1" "f" "p"
    .ioFailure (by decide)).2).1

theorem foldl_maxstep_snoc :
    ∀ (l : List ItemRow) (acc : Option Int) (r : ItemRow),
      List.foldl (fun acc r =>
        match acc with
        | none => some r.position
        | some m => some (max m r.position)) acc (l ++ [r]) =
      some (match List.foldl (fun acc r =>
        match acc with
        | none => some r.position
        | some m => some (max m r.position)) acc l with
        | none => r.position
        | some m => max m r.position) := by
  intro l
  induction l with
  | nil =>
    intro acc r
    cases acc <;> rfl
  | cons a l ih =>
    intro acc r
    rw [List.cons_append, List.foldl_cons, List.foldl_cons, ih]

/-- `MAX(position)` after appending one row. -/
theorem maxPos?_snoc (l : List ItemRow) (r : ItemRow) :
    maxPos? (l ++ [r]) = some (match maxPos? l with
      | none => r.position
      | some m => max m r.position) := by
  unfold maxPos?
  exact foldl_maxstep_snoc l none r

/-- Appending a row of the thread extends the scoped row set by that row. -/
theorem scopedItems_snoc (db db' : DB) (tid : String) (row : ItemRow)
    (hitems : db'.items = db.items ++ [row]) (hrow : row.thread_id = tid) :
    scopedItems db' tid = scopedItems db tid ++ [row] := by
  unfold scopedItems
  rw [hitems, List.filter_append]
  congr 1
  simp [hrow]

/-- The `COALESCE(MAX(position) + 1, 0)` step: inserting the row the engine
just built bumps the next position by one and keeps every live position below
it. -/
theorem nextPosition_snoc (db db' : DB) (tid : String) (row : ItemRow)
    (hitems : db'.items = db.items ++ [row]) (hrow : row.thread_id = tid)
    (n : Int) (hnext : nextPosition db tid = n) (hpos : row.position = n)
    (hbound : ∀ r ∈ scopedItems db tid, r.position < n) :
    nextPosition db' tid = n + 1
    ∧ (∀ r ∈ scopedItems db' tid, r.position < n + 1) := by
  have hsc : scopedItems db' tid = scopedItems db tid ++ [row] :=
    scopedItems_snoc db db' tid row hitems hrow
  constructor
  · unfold nextPosition
    rw [hsc, maxPos?_snoc]
    unfold nextPosition at hnext
    cases hm : maxPos? (scopedItems db tid) with
    | none =>
      show row.position + 1 = n + 1
      rw [hpos]
    | some m =>
      rw [hm] at hnext
      have hmn : m + 1 = n := hnext
      show max m row.position + 1 = n + 1
      rw [hpos]
      have hlt : m < n := by omega
      rw [max_eq_right (le_of_lt hlt)]
  · intro r hr
    rw [hsc] at hr
    rcases List.mem_append.mp hr with h | h
    · exact lt_trans (hbound r h) (by omega)
    · have : r = row := List.mem_singleton.mp h
      rw [this, hpos]
      omega

/-- A successful `add_thread_item` appends exactly one row: the given id and
document, the scoping thread id, the carried-or-now creation time, and the
freshly computed position. -/
theorem add_thread_item_ok {db : DB} {tid : String} {item : ItemVal}
    {now : String} {db' : DB}
    (h : add_thread_item db tid item now = .ok db') :
    db'.items = db.items ++
      [⟨item.id, tid, item.doc, item.created_at.getD now,
        nextPosition db tid⟩] := by
  unfold add_thread_item at h
  by_cases h1 : item.id = ""
  · rw [if_pos h1] at h
    exact Except.noConfusion h
  · rw [if_neg h1] at h
    by_cases h2 : db.items.any (fun r => decide (r.id = item.id)) = true
    · rw [if_pos h2] at h
      exact Except.noConfusion h
    · rw [if_neg h2] at h
      by_cases h3 : db.threads.any (fun r => decide (r.id = tid)) = true
      · rw [if_neg (by simp [h3])] at h
        injection h with h'
        rw [← h']
      · have h3' : db.threads.any (fun r => decide (r.id = tid)) = false := by
          revert h3
          cases db.threads.any (fun r => decide (r.id = tid)) <;> simp
        rw [if_pos (by simp [h3'])] at h
        exact Except.noConfusion h

/-- In an adds-only run starting at next position `n`, the assigned positions
are the consecutive integers from `n`. -/
theorem assigned_adds_range (tid : String) :
    ∀ (ops : List ItemOp) (db : DB) (n : Nat),
      (∀ op ∈ ops, op.isAddOp = true) →
      nextPosition db tid = Int.ofNat n →
      (∀ r ∈ scopedItems db tid, r.position < Int.ofNat n) →
      ∃ k, assignedPositions tid db ops =
        (List.range' n k).map Int.ofNat := by
  intro ops
  induction ops with
  | nil =>
    intro db n _ _ _
    exact ⟨0, rfl⟩
  | cons op ops ih =>
    intro db n hadds hnext hbound
    cases op with
    | del iid =>
      exact absurd (hadds _ (List.mem_cons_self _ _))
        (by simp [ItemOp.isAddOp])
    | add item now =>
      cases hcall : add_thread_item db tid item now with
      | error e =>
        simp only [assignedPositions, hcall]
        exact ih db n (fun op hop => hadds op (List.mem_cons_of_mem _ hop))
          hnext hbound
      | ok db' =>
        simp only [assignedPositions, hcall]
        have hitems := add_thread_item_ok hcall
        have hstep := nextPosition_snoc db db' tid _ hitems rfl
          (Int.ofNat n) hnext hnext hbound
        have hnext' : nextPosition db' tid = Int.ofNat (n + 1) :=
          hstep.1.trans (Int.ofNat_succ n).symm
        have hbound' : ∀ r ∈ scopedItems db' tid,
            r.position < Int.ofNat (n + 1) := by
          intro r hr
          exact lt_of_lt_of_le (hstep.2 r hr)
            (le_of_eq (Int.ofNat_succ n).symm)
        obtain ⟨k, hk⟩ := ih db' (n + 1)
          (fun op hop => hadds op (List.mem_cons_of_mem _ hop)) hnext' hbound'
        refine ⟨k + 1, ?_⟩
        rw [hk, hnext, List.range'_succ, List.map_cons]

/-- C3 (corrected, amended): for an adds-only sequential run against a thread
that starts with no items, positions are assigned as the consecutive integers
`0, 1, 2, …` — strictly increasing from 0, never reused.  (With deletions the
next position is still one greater than the live maximum, so deleting the
highest-positioned item lets its value be assigned again — see the
counterexample.) -/
theorem claim_positions_append_only (tid : String) (db : DB)
    (ops : List ItemOp)
    (hadds : ∀ op ∈ ops, op.isAddOp = true)
    (hinit : ∀ r ∈ db.items, r.thread_id ≠ tid) :
    ∃ k, assignedPositions tid db ops = (List.range k).map Int.ofNat := by
  have hsc : scopedItems db tid = [] := by
    unfold scopedItems
    rw [List.filter_eq_nil_iff]
    intro r hr
    simp [hinit r hr]
  have hnext : nextPosition db tid = Int.ofNat 0 := by
    unfold nextPosition
    rw [hsc]
    rfl
  have hbound : ∀ r ∈ scopedItems db tid, r.position < Int.ofNat 0 := by
    rw [hsc]
    intro r hr
    cases hr
  obtain ⟨k, hk⟩ := assigned_adds_range tid ops db 0 hadds hnext hbound
  exact ⟨k, by rw [hk, List.range_eq_range']⟩

/-- Counterexample to C3 as stated: append two items (positions 0 and 1),
delete the highest-positioned one, and append again — the run assigns
`[0, 1, 1]`: position 1 is assigned a second time after the deletion, so
positions are not an append-only never-reused sequence. -/
theorem claim_positions_append_only_cex :
    assignedPositions "t" ⟨[⟨"t", "d", "c", "u"⟩], []⟩
        [.add ⟨"a", "da", none⟩ "n1", .add ⟨"b", "db", none⟩ "n2",
         .del "b", .add ⟨"c", "dc", none⟩ "n3"] = [0, 1, 1]
    ∧ ¬ List.Pairwise (fun a b => a ≠ b) ([0, 1, 1] : List Int) :=
  ⟨rfl, by decide⟩

/-- Closed witness for C3 (amended): an adds-only run from an empty thread. -/
theorem claim_positions_append_only_witness :
    ∃ k, assignedPositions "t" ⟨[⟨"t", "d", "c", "u"⟩], []⟩
        [.add ⟨"a", "da", none⟩ "n1", .add ⟨"b", "db", none⟩ "n2"] =
      (List.range k).map Int.ofNat :=
  claim_positions_append_only "t" ⟨[⟨"t", "d", "c", "u"⟩], []⟩
    [.add ⟨"a", "da", none⟩ "n1", .add ⟨"b", "db", none⟩ "n2"]
    (by decide) (by decide)

/-- C1 (corrected, amended): provided no stored record has the empty string
as id (and ids are unique, as the PRIMARY KEY guarantees; for items, the
thread's live positions are distinct, as the append-only assignment
maintains), repeatedly following `after` cursors from `after = None` with
`limit ≥ 1` terminates within `length + 1` calls at a `has_more = false`
page, and the concatenated pages are exactly the full result set — a
permutation of the stored rows (no duplicates, no omissions) sorted by the
order key with id tie-break in the requested direction.  (An empty-string id
breaks the walk: its cursor is falsy, so the next call restarts from the top
— see the counterexample.) -/
theorem claim_pagination_completeness (db : DB) (tid : String) (limit : Nat)
    (order : String) (fuelT fuelI : Nat) (hlim : 1 ≤ limit)
    (hnT : (db.threads.map ThreadRow.id).Nodup)
    (hidsT : ∀ r ∈ db.threads, r.id ≠ "")
    (hnI : (db.items.map ItemRow.id).Nodup)
    (hidsI : ∀ r ∈ db.items, r.id ≠ "")
    (hpos : (scopedItems db tid).Pairwise (fun a b => a.position ≠ b.position))
    (hfT : db.threads.length + 1 ≤ fuelT)
    (hfI : db.items.length + 1 ≤ fuelI) :
    (walkThreads db limit order fuelT = some (threadsMatching db none order)
      ∧ (threadsMatching db none order).Perm db.threads
      ∧ (threadsMatching db none order).Pairwise
          (rowLE ThreadRow.updKey ThreadRow.id (isDesc order)))
    ∧ (walkItems db tid limit order fuelI =
        some (itemsMatching db tid none order)
      ∧ (itemsMatching db tid none order).Perm (scopedItems db tid)
      ∧ (itemsMatching db tid none order).Pairwise
          (rowLE ItemRow.position ItemRow.id (isDesc order))) :=
  ⟨⟨walkThreads_complete db limit order fuelT hlim hnT hidsT hfT,
    List.perm_insertionSort _ _, List.sorted_insertionSort _ _⟩,
    walkItems_complete db tid limit order fuelI hlim hnI hidsI hpos hfI,
    List.perm_insertionSort _ _, List.sorted_insertionSort _ _⟩

/-- Counterexample to C1 as stated: a stored thread whose id is the empty
string.  Python's `if after:` treats the issued cursor `""` as absent, so the
walk repeats the first page forever — it never reaches a `has_more = false`
page (fuel `length + 1`, which suffices for every database with non-empty
ids, is exhausted), and the repetition already duplicates the first row. -/
theorem claim_pagination_completeness_cex :
    walkThreads ⟨[⟨"", "dA", "cA", "2"⟩, ⟨"b", "dB", "cB", "1"⟩], []⟩ 1
        "desc" 3 = none
    ∧ load_threads ⟨[⟨"", "dA", "cA", "2"⟩, ⟨"b", "dB", "cB", "1"⟩], []⟩ 1
        (some "") "desc" =
      load_threads ⟨[⟨"", "dA", "cA", "2"⟩, ⟨"b", "dB", "cB", "1"⟩], []⟩ 1
        none "desc"
    ∧ load_threads ⟨[⟨"", "dA", "cA", "2"⟩, ⟨"b", "dB", "cB", "1"⟩], []⟩ 1
        none "desc" =
      .ok ⟨[⟨"", "dA", "cA", "2"⟩], true, some ""⟩ :=
  ⟨rfl, rfl, rfl⟩

/-- Closed witness for C1 (amended) at a concrete two-thread, two-item
database. -/
theorem claim_pagination_completeness_witness :
    (walkThreads ⟨[⟨"t1", "d1", "c1", "u1"⟩, ⟨"t2", "d2", "c2", "u2"⟩],
          [⟨"i1", "t1", "e1", "c1", 0⟩, ⟨"i2", "t1", "e2", "c2", 1⟩]⟩ 1 "asc"
        3 =
      some (threadsMatching ⟨[⟨"t1", "d1", "c1", "u1"⟩,
          ⟨"t2", "d2", "c2", "u2"⟩],
          [⟨"i1", "t1", "e1", "c1", 0⟩, ⟨"i2", "t1", "e2", "c2", 1⟩]⟩ none
        "asc")
      ∧ (threadsMatching ⟨[⟨"t1", "d1", "c1", "u1"⟩,
          ⟨"t2", "d2", "c2", "u2"⟩],
          [⟨"i1", "t1", "e1", "c1", 0⟩, ⟨"i2", "t1", "e2", "c2", 1⟩]⟩ none
        "asc").Perm [⟨"t1", "d1", "c1", "u1"⟩, ⟨"t2", "d2", "c2", "u2"⟩]
      ∧ (threadsMatching ⟨[⟨"t1", "d1", "c1", "u1"⟩,
          ⟨"t2", "d2", "c2", "u2"⟩],
          [⟨"i1", "t1", "e1", "c1", 0⟩, ⟨"i2", "t1", "e2", "c2", 1⟩]⟩ none
        "asc").Pairwise (rowLE ThreadRow.updKey ThreadRow.id (isDesc "asc")))
    ∧ (walkItems ⟨[⟨"t1", "d1", "c1", "u1"⟩, ⟨"t2", "d2", "c2", "u2"⟩],
          [⟨"i1", "t1", "e1", "c1", 0⟩, ⟨"i2", "t1", "e2", "c2", 1⟩]⟩ "t1" 1
        "asc" 3 =
      some (itemsMatching ⟨[⟨"t1", "d1", "c1", "u1"⟩,
          ⟨"t2", "d2", "c2", "u2"⟩],
          [⟨"i1", "t1", "e1", "c1", 0⟩, ⟨"i2", "t1", "e2", "c2", 1⟩]⟩ "t1"
        none "asc")
      ∧ (itemsMatching ⟨[⟨"t1", "d1", "c1", "u1"⟩,
          ⟨"t2", "d2", "c2", "u2"⟩],
          [⟨"i1", "t1", "e1", "c1", 0⟩, ⟨"i2", "t1", "e2", "c2", 1⟩]⟩ "t1"
        none "asc").Perm (scopedItems ⟨[⟨"t1", "d1", "c1", "u1"⟩,
          ⟨"t2", "d2", "c2", "u2"⟩],
          [⟨"i1", "t1", "e1", "c1", 0⟩, ⟨"i2", "t1", "e2", "c2", 1⟩]⟩ "t1")
      ∧ (itemsMatching ⟨[⟨"t1", "d1", "c1", "u1"⟩,
          ⟨"t2", "d2", "c2", "u2"⟩],
          [⟨"i1", "t1", "e1", "c1", 0⟩, ⟨"i2", "t1", "e2", "c2", 1⟩]⟩ "t1"
        none "asc").Pairwise
          (rowLE ItemRow.position ItemRow.id (isDesc "asc"))) :=
  claim_pagination_completeness
    ⟨[⟨"t1", "d1", "c1", "u1"⟩, ⟨"t2", "d2", "c2", "u2"⟩],
      [⟨"i1", "t1", "e1", "c1", 0⟩, ⟨"i2", "t1", "e2", "c2", 1⟩]⟩ "t1" 1
    "asc" 3 3 (by decide) (by decide) (by decide) (by decide) (by decide)
    (by decide) (by decide) (by decide)
